import Mathlib

/-!
Shallow embedding of the retrieval core of `src/module.py` (the NIRD
semantic-search engine): tokenizer/vectorizer `nettoyer_et_vectoriser`,
`cosine_similarity`, the keyword-boosted best-chunk selection loop of the
`/nird` handler `chercher_dans_nird`, result shaping (strip / 600-char
truncation / rounding) and the fallback response.

Modelling conventions:
* Python strings are `List Char`; `len`, slicing and `in` become list
  operations on characters.
* `collections.Counter(mots)` is the multiset of the token list
  (`Multiset (List Char)`): counts are the list multiplicities, so every
  stored key has count at least 1, exactly as `Counter` built from a list.
* Python floats are real numbers `ℝ`; `math.sqrt` is `Real.sqrt` and
  `round(x, 3)` is modelled as decimal rounding to the nearest multiple of
  1/1000 (`round3`).
* Python dict access `d["k"]` on a possibly-missing key is modelled, for the
  malformed-record analysis, by `Option`-valued fields on `RawChunk`; a
  `none` result of an operation models an uncaught `KeyError` escaping the
  handler.  The main development uses `ChunkT`, the well-formed records
  produced by the repository's scraping pipeline, where all four fields are
  present.
-/

open BigOperators

set_option maxRecDepth 20000

/-- Lowercase table for `str.lower()`: ASCII letters plus the accented
letters occurring in the repository's French word lists.  Python lowercases
all of unicode; the engine's own string literals only use these. -/
def lowerPairs : List (Char × Char) :=
  [('A','a'),('B','b'),('C','c'),('D','d'),('E','e'),('F','f'),('G','g'),
   ('H','h'),('I','i'),('J','j'),('K','k'),('L','l'),('M','m'),('N','n'),
   ('O','o'),('P','p'),('Q','q'),('R','r'),('S','s'),('T','t'),('U','u'),
   ('V','v'),('W','w'),('X','x'),('Y','y'),('Z','z'),
   ('À','à'),('Â','â'),('Ä','ä'),('É','é'),('È','è'),('Ê','ê'),('Ë','ë'),
   ('Î','î'),('Ï','ï'),('Ô','ô'),('Ö','ö'),('Ù','ù'),('Û','û'),('Ü','ü'),
   ('Ç','ç'),('Œ','œ')]

/-- Lowercasing of one character (`str.lower()` restricted to the characters
the engine can meet in its own data). -/
def toLowerChar (c : Char) : Char :=
  ((lowerPairs.find? (fun p => p.1 == c)).map Prod.snd).getD c

/-- `texte.lower()` on a Python string. -/
def lowerStr (s : List Char) : List Char := s.map toLowerChar

/-- Word characters of the regex `\w` (`re.findall(r'\w+', ...)`): ASCII
letters and digits, underscore, and the accented letters of the corpus
language (Python's `\w` is unicode-aware; we model the characters that occur
in the repository's word lists). -/
def isWordChar (c : Char) : Bool :=
  c.isAlphanum || c == '_' ||
    (['à','â','ä','é','è','ê','ë','î','ï','ô','ö','ù','û','ü','ç','œ',
      'À','Â','Ä','É','È','Ê','Ë','Î','Ï','Ô','Ö','Ù','Û','Ü','Ç','Œ'].contains c)

/-- Accumulator implementation of `re.findall(r'\w+', texte)`: maximal runs
of word characters, in order.  `cur` holds the (reversed) run being built. -/
def findallAux : List Char → List Char → List (List Char)
  | cur, [] => if cur.isEmpty then [] else [cur.reverse]
  | cur, c :: cs =>
    if isWordChar c then findallAux (c :: cur) cs
    else if cur.isEmpty then findallAux [] cs else cur.reverse :: findallAux [] cs

/-- `re.findall(r'\w+', texte)`. -/
def findall_w (s : List Char) : List (List Char) := findallAux [] s

/-- Structural description of `re.findall(r'\w+', ...)`: when the string
starts with a word character the first token is the maximal word-character
run at the front; proven equal to `findall_w` below. -/
def motsSpan : List Char → List (List Char)
  | [] => []
  | c :: cs =>
    if isWordChar c then
      (c :: cs.takeWhile isWordChar) :: motsSpan (cs.dropWhile isWordChar)
    else motsSpan cs
termination_by l => l.length
decreasing_by
  · simp only [List.length_cons]
    exact Nat.lt_succ_of_le (List.Sublist.length_le (List.dropWhile_sublist _))
  · simp only [List.length_cons]
    exact Nat.lt_succ_of_le (Nat.le_refl _)

/-- The stopword set of `nettoyer_et_vectoriser` (`src/module.py` lines
31-36). -/
def stopwords : List (List Char) :=
  (["le","la","les","de","du","des","un","une","et","ou","à","au","aux","en","dans",
    "sur","pour","par","avec","sans","sous","chez","ce","cette","ces","son","sa","ses",
    "mon","ma","mes","ton","ta","tes","je","tu","il","elle","nous","vous","ils","elles",
    "qui","que","quoi","dont","où","quand","comment","mais","est","sont","pas","plus","très"
   ]).map String.data

/-- `nettoyer_et_vectoriser` (`src/module.py` lines 28-38): lowercase, split
into `\w+` tokens, drop stopwords and tokens of length at most 2, and count
occurrences (`Counter(mots)` is the multiset of the filtered token list). -/
def nettoyer_et_vectoriser (texte : List Char) : Multiset (List Char) :=
  ((findall_w (lowerStr texte)).filter
    (fun m => decide (m ∉ stopwords) && decide (2 < m.length)) : List (List Char))

/-- Numerator of `cosine_similarity` (`src/module.py` line 44):
`sum(vec1[w] * vec2[w] for w in communs)` where `communs = set(vec1) & set(vec2)`. -/
def numCommun (vec1 vec2 : Multiset (List Char)) : ℕ :=
  ∑ w in vec1.toFinset ∩ vec2.toFinset, vec1.count w * vec2.count w

/-- One factor under a square root in the denominator of `cosine_similarity`
(`src/module.py` line 45): `sum(v*v for v in vec.values())`. -/
def sommeCarres (vec : Multiset (List Char)) : ℕ :=
  ∑ w in vec.toFinset, vec.count w * vec.count w

/-- `cosine_similarity` (`src/module.py` lines 40-46): 0.0 when the key sets
are disjoint, otherwise the dot product over common keys divided by the
product of the Euclidean norms, with a guard returning 0.0 for a zero
denominator. -/
noncomputable def cosine_similarity (vec1 vec2 : Multiset (List Char)) : ℝ :=
  if vec1.toFinset ∩ vec2.toFinset = ∅ then 0
  else
    let num : ℝ := numCommun vec1 vec2
    let den : ℝ := Real.sqrt (sommeCarres vec1) * Real.sqrt (sommeCarres vec2)
    if den ≠ 0 then num / den else 0

/-- Does `pat` occur at the head of `s` (`matchesAt pat s` iff `pat` is an
initial segment of `s`)? -/
def matchesAt : List Char → List Char → Bool
  | [], _ => true
  | _ :: _, [] => false
  | p :: ps, c :: cs => p == c && matchesAt ps cs

/-- Python's substring test `pat in s`. -/
def occursIn (pat : List Char) : List Char → Bool
  | [] => matchesAt pat []
  | c :: cs => matchesAt pat (c :: cs) || occursIn pat cs

/-- `mots_forts` (`src/module.py` line 88). -/
def mots_forts : List (List Char) :=
  (["linux","reconditionnement","nird","primtux","tchap","écologique","libre",
    "inclusif","durable","obsolescence","forge"]).map String.data

/-- Score of one chunk vector (`src/module.py` lines 91-95): raw cosine
similarity, then `score += 0.18` for every strong keyword that is a substring
of the lowercased question. -/
noncomputable def scoreChunk (question : List Char) (vec_q vec_chunk : Multiset (List Char)) : ℝ :=
  mots_forts.foldl
    (fun s mot => if occursIn mot (lowerStr question) then s + 0.18 else s)
    (cosine_similarity vec_q vec_chunk)

/-- Number of strong keywords occurring as substrings of the lowercased
question; each one contributes `+0.18` inside the loop of lines 93-95. -/
def matchCount (question : List Char) : ℕ :=
  (mots_forts.filter (fun mot => occursIn mot (lowerStr question))).length

/-- A well-formed chunk record, as produced by the repository's scraping
pipeline: all four fields present. -/
structure ChunkT where
  chunk_id : Int
  text : List Char
  source_url : List Char
  source_title : List Char
deriving DecidableEq

/-- The startup index (`src/module.py` line 50):
`[nettoyer_et_vectoriser(c["text"]) for c in chunks]`, parametrised by the
loaded corpus. -/
def vecteurs_chunks (chunks : List ChunkT) : List (Multiset (List Char)) :=
  chunks.map (fun c => nettoyer_et_vectoriser c.text)

/-- One iteration of the selection loop (`src/module.py` lines 90-98): score
the chunk vector and keep it when the score strictly exceeds the best so far. -/
noncomputable def loopStep (question : List Char) (vec_q : Multiset (List Char))
    (acc : ℝ × Option ChunkT) (p : ChunkT × Multiset (List Char)) : ℝ × Option ChunkT :=
  let score := scoreChunk question vec_q p.2
  if acc.1 < score then (score, some p.1) else acc

/-- Total score of a corpus chunk for a question: cosine similarity of the
two term vectors plus the keyword boost, exactly what the loop of lines
90-95 computes for that chunk. -/
noncomputable def scoreOf (question : List Char) (c : ChunkT) : ℝ :=
  scoreChunk question (nettoyer_et_vectoriser question) (nettoyer_et_vectoriser c.text)

/-- The whole selection loop (`src/module.py` lines 85-98), starting from
`meilleur_score = 0.0`, `meilleur_chunk = None` and walking the precomputed
vectors alongside the corpus. -/
noncomputable def meilleur (chunks : List ChunkT) (question : List Char) : ℝ × Option ChunkT :=
  (chunks.zip (vecteurs_chunks chunks)).foldl
    (loopStep question (nettoyer_et_vectoriser question)) (0, none)

/-- Python whitespace for `str.strip()` (ASCII part; the corpus data is
French text without exotic unicode spaces). -/
def pyWs (c : Char) : Bool :=
  c == ' ' || c == '\t' || c == '\n' || c == '\r' || c == '\x0b' || c == '\x0c'

/-- `texte.strip()`. -/
def pyStrip (s : List Char) : List Char :=
  ((s.dropWhile pyWs).reverse.dropWhile pyWs).reverse

/-- `texte[:600].rsplit(' ', 1)[0]`: everything strictly before the last
space character, or the whole string when it has no space. -/
def beforeLastSpace (s : List Char) : List Char :=
  if s.contains ' ' then ((s.reverse.dropWhile (fun c => !(c == ' '))).tail).reverse else s

/-- Result shaping of the matched chunk's text (`src/module.py` lines
102-104): strip, and when longer than 600 characters truncate to 600, cut
back to before the last space and append `"..."`. -/
def shapeContexte (t : List Char) : List Char :=
  let texte := pyStrip t
  if 600 < texte.length then beforeLastSpace (texte.take 600) ++ ('.' :: '.' :: '.' :: [])
  else texte

/-- `round(x, 3)`: decimal rounding to 3 places (Python's float `round` up to
binary-float representation and its ties-to-even convention, which the
threshold analysis never exercises). -/
noncomputable def round3 (x : ℝ) : ℝ := (round (1000 * x) : ℤ) / 1000

/-- The response model `ReponseNIRD` (`src/module.py` lines 65-72) minus the
request timestamp, which is wall-clock data of the transport layer. -/
structure ReponseNIRD where
  question : List Char
  contexte : List Char
  confiance : ℝ
  chunk_id : Int
  source_url : List Char
  source_title : List Char

/-- The hard-coded fallback response (`src/module.py` lines 115-123). -/
noncomputable def fallbackReponse (question : List Char) : ReponseNIRD :=
  { question := question
    contexte := ("La démarche NIRD promeut un numérique Inclusif, Responsable et Durable dans les établissements scolaires via Linux, le reconditionnement et les logiciels libres.").data
    confiance := 0.0
    chunk_id := -1
    source_url := ("https://nird.forge.apps.education.fr/").data
    source_title := ("Accueil").data }

/-- The response built from the winning chunk (`src/module.py` lines
105-113). -/
noncomputable def matchReponse (question : List Char) (ch : ChunkT) (score : ℝ) : ReponseNIRD :=
  { question := question
    contexte := shapeContexte ch.text
    confiance := round3 score
    chunk_id := ch.chunk_id
    source_url := ch.source_url
    source_title := ch.source_title }

/-- The `/nird` handler body after request validation (`src/module.py` lines
83-123).  The transport layer strips the question and rejects empty ones with
HTTP 400 before this code runs (lines 79-81), so `question` is the stripped
request string.  `none` models the `TypeError` Python would raise on
`meilleur_chunk["text"]` if the Match branch were reached with
`meilleur_chunk = None`. -/
noncomputable def chercher_dans_nird (chunks : List ChunkT) (question : List Char) :
    Option ReponseNIRD :=
  let r := meilleur chunks question
  if (0.12 : ℝ) < r.1 then
    match r.2 with
    | none => none
    | some ch => some (matchReponse question ch r.1)
  else some (fallbackReponse question)

/-- Abstract form of one selection-loop iteration, with the chunk score as a
function; `loopStep` on the zipped corpus is exactly this with
`f = scoreOf question`. -/
noncomputable def selStep {α : Type} (f : α → ℝ) (acc : ℝ × Option α) (c : α) : ℝ × Option α :=
  if acc.1 < f c then (f c, some c) else acc

/-- A chunk record as a Python dict with possibly-missing keys; `none` fields
model absent keys, whose access raises `KeyError`. -/
structure RawChunk where
  chunk_id : Option Int
  text : Option (List Char)
  source_url : Option (List Char)
  source_title : Option (List Char)

/-- The startup index built over raw records (`src/module.py` line 50):
`c["text"]` raises `KeyError` when the key is absent, so a single chunk with
a missing `text` aborts the comprehension (`none`). -/
def vecteurs_chunks_raw : List RawChunk → Option (List (Multiset (List Char)))
  | [] => some []
  | c :: rest =>
    match c.text with
    | none => none
    | some t => (vecteurs_chunks_raw rest).map (fun l => nettoyer_et_vectoriser t :: l)

/-- Building the Match response from a raw record (`src/module.py` lines
105-113): the four keys are accessed directly, so any missing one raises
`KeyError` (`none`); no empty-string substitution takes place. -/
noncomputable def buildMatchRaw (question : List Char) (ch : RawChunk) (score : ℝ) :
    Option ReponseNIRD :=
  match ch.text, ch.chunk_id, ch.source_url, ch.source_title with
  | some t, some i, some u, some st =>
      some { question := question, contexte := shapeContexte t, confiance := round3 score,
             chunk_id := i, source_url := u, source_title := st }
  | _, _, _, _ => none

/-! ### Substring machinery -/

theorem matchesAt_iff (pat s : List Char) :
    matchesAt pat s = true ↔ ∃ v, s = pat ++ v := by
  induction pat generalizing s with
  | nil =>
    simp only [matchesAt, List.nil_append, true_iff]
    exact ⟨s, rfl⟩
  | cons p ps ih =>
    cases s with
    | nil =>
      simp only [matchesAt, List.cons_append]
      constructor
      · intro h; cases h
      · rintro ⟨v, h⟩; cases h
    | cons c cs =>
      simp only [matchesAt, Bool.and_eq_true, beq_iff_eq, ih, List.cons_append]
      constructor
      · rintro ⟨rfl, v, rfl⟩; exact ⟨v, rfl⟩
      · rintro ⟨v, h⟩
        injection h with h1 h2
        exact ⟨h1.symm, v, h2⟩

theorem occursIn_iff (pat s : List Char) :
    occursIn pat s = true ↔ ∃ u v, s = u ++ pat ++ v := by
  induction s with
  | nil =>
    simp only [occursIn, matchesAt_iff]
    constructor
    · rintro ⟨v, h⟩; exact ⟨[], v, by simpa using h⟩
    · rintro ⟨u, v, h⟩
      have h' : u ++ (pat ++ v) = [] := by rw [← List.append_assoc]; exact h.symm
      rcases List.append_eq_nil.1 h' with ⟨hu, hpv⟩
      rcases List.append_eq_nil.1 hpv with ⟨hp, hv⟩
      exact ⟨[], by simp [hp]⟩
  | cons c cs ih =>
    simp only [occursIn, Bool.or_eq_true, matchesAt_iff, ih]
    constructor
    · rintro (⟨v, h⟩ | ⟨u, v, h⟩)
      · exact ⟨[], v, by simpa using h⟩
      · exact ⟨c :: u, v, by simp [h]⟩
    · rintro ⟨u, v, h⟩
      cases u with
      | nil => exact Or.inl ⟨v, by simpa using h⟩
      | cons x xs =>
        injection h with h1 h2
        exact Or.inr ⟨xs, v, h2⟩

/-! ### The keyword boost -/

theorem foldl_boost_aux (q : List Char) (l : List (List Char)) (init : ℝ) :
    l.foldl (fun s mot => if occursIn mot (lowerStr q) then s + 0.18 else s) init
      = init + 0.18 * ((l.filter (fun mot => occursIn mot (lowerStr q))).length : ℝ) := by
  induction l generalizing init with
  | nil => simp
  | cons mot rest ih =>
    by_cases h : occursIn mot (lowerStr q) = true
    · simp only [List.foldl_cons, List.filter_cons, h, if_pos, ih, List.length_cons]
      push_cast
      ring
    · have hb : occursIn mot (lowerStr q) = false := by simpa using h
      simp [List.foldl_cons, List.filter_cons, hb, ih]

/-- The inner loop of lines 93-95 adds `0.18 * matchCount question` to the
raw cosine similarity, identically for every chunk. -/
theorem scoreChunk_eq (question : List Char) (vq v : Multiset (List Char)) :
    scoreChunk question vq v
      = cosine_similarity vq v + 0.18 * (matchCount question : ℝ) := by
  unfold scoreChunk matchCount
  exact foldl_boost_aux question mots_forts (cosine_similarity vq v)

/-! ### The selection loop -/

theorem selFold_fst_le_of {α : Type} (f : α → ℝ) (l : List α) (acc : ℝ × Option α) (b : ℝ)
    (hacc : acc.1 ≤ b) (hl : ∀ c ∈ l, f c ≤ b) : (l.foldl (selStep f) acc).1 ≤ b := by
  induction l generalizing acc with
  | nil => simpa using hacc
  | cons c rest ih =>
    simp only [List.foldl_cons]
    apply ih
    · unfold selStep
      by_cases h : acc.1 < f c
      · simpa [h] using hl c (by simp)
      · simpa [h] using hacc
    · intro x hx; exact hl x (by simp [hx])

theorem selFold_le_fst {α : Type} (f : α → ℝ) (l : List α) (acc : ℝ × Option α) :
    acc.1 ≤ (l.foldl (selStep f) acc).1 ∧ ∀ c ∈ l, f c ≤ (l.foldl (selStep f) acc).1 := by
  induction l generalizing acc with
  | nil => simp
  | cons c rest ih =>
    simp only [List.foldl_cons]
    have hstep : acc.1 ≤ (selStep f acc c).1 ∧ f c ≤ (selStep f acc c).1 := by
      unfold selStep
      by_cases h : acc.1 < f c
      · simp [h, le_of_lt h]
      · simp [h, le_of_not_lt h]
    obtain ⟨h1, h2⟩ := ih (selStep f acc c)
    refine ⟨le_trans hstep.1 h1, ?_⟩
    intro x hx
    rcases List.mem_cons.1 hx with rfl | hx
    · exact le_trans hstep.2 h1
    · exact h2 x hx

theorem selFold_cases {α : Type} (f : α → ℝ) (l : List α) (acc : ℝ × Option α) :
    l.foldl (selStep f) acc = acc ∨
    ∃ l₁ c l₂, l = l₁ ++ c :: l₂ ∧ (l.foldl (selStep f) acc).2 = some c ∧
      (l.foldl (selStep f) acc).1 = f c ∧ acc.1 < f c ∧ ∀ x ∈ l₁, f x < f c := by
  induction l generalizing acc with
  | nil => exact Or.inl rfl
  | cons c₀ rest ih =>
    simp only [List.foldl_cons]
    by_cases h : acc.1 < f c₀
    · have hstep : selStep f acc c₀ = (f c₀, some c₀) := by simp [selStep, h]
      rw [hstep]
      rcases ih (f c₀, some c₀) with heq | ⟨l₁, c, l₂, hdec, h2, h1, hlt, hall⟩
      · refine Or.inr ⟨[], c₀, rest, by simp, ?_, ?_, h, by simp⟩
        · rw [heq]
        · rw [heq]
      · refine Or.inr ⟨c₀ :: l₁, c, l₂, by simp [hdec], h2, h1, lt_trans h hlt, ?_⟩
        intro x hx
        rcases List.mem_cons.1 hx with rfl | hx
        · simpa using hlt
        · exact hall x hx
    · have hstep : selStep f acc c₀ = acc := by simp [selStep, h]
      rw [hstep]
      rcases ih acc with heq | ⟨l₁, c, l₂, hdec, h2, h1, hlt, hall⟩
      · exact Or.inl heq
      · refine Or.inr ⟨c₀ :: l₁, c, l₂, by simp [hdec], h2, h1, hlt, ?_⟩
        intro x hx
        rcases List.mem_cons.1 hx with rfl | hx
        · exact lt_of_le_of_lt (le_of_not_lt h) hlt
        · exact hall x hx

theorem zip_vecteurs (chunks : List ChunkT) :
    chunks.zip (vecteurs_chunks chunks)
      = chunks.map (fun c => (c, nettoyer_et_vectoriser c.text)) := by
  induction chunks with
  | nil => rfl
  | cons c rest ih =>
    show (c, nettoyer_et_vectoriser c.text) :: rest.zip (vecteurs_chunks rest)
        = (c, nettoyer_et_vectoriser c.text)
            :: rest.map (fun c => (c, nettoyer_et_vectoriser c.text))
    rw [ih]

/-- The selection loop of `chercher_dans_nird` is the abstract selection fold
over the corpus with the per-chunk score function. -/
theorem meilleur_eq (chunks : List ChunkT) (question : List Char) :
    meilleur chunks question = chunks.foldl (selStep (scoreOf question)) (0, none) := by
  unfold meilleur
  rw [zip_vecteurs, List.foldl_map]
  rfl

/-! ### Cosine similarity -/

theorem cosine_of_disjoint (v1 v2 : Multiset (List Char))
    (h : v1.toFinset ∩ v2.toFinset = ∅) : cosine_similarity v1 v2 = 0 := by
  unfold cosine_similarity
  rw [if_pos h]

theorem one_le_sommeCarres {v : Multiset (List Char)} {w : List Char}
    (hw : w ∈ v.toFinset) : 1 ≤ sommeCarres v := by
  have hcount : 1 ≤ v.count w := Multiset.one_le_count_iff_mem.2 (Multiset.mem_toFinset.1 hw)
  have h1 : 1 ≤ v.count w * v.count w := Nat.one_le_iff_ne_zero.2 (by positivity)
  have hsum : v.count w * v.count w ≤ ∑ x in v.toFinset, v.count x * v.count x :=
    Finset.single_le_sum (f := fun x => v.count x * v.count x) (fun x _ => Nat.zero_le _) hw
  exact le_trans h1 hsum

theorem den_pos (v1 v2 : Multiset (List Char)) (h : v1.toFinset ∩ v2.toFinset ≠ ∅) :
    0 < Real.sqrt (sommeCarres v1) * Real.sqrt (sommeCarres v2) := by
  obtain ⟨w, hw⟩ := Finset.nonempty_iff_ne_empty.2 h
  have hw1 : w ∈ v1.toFinset := (Finset.mem_inter.1 hw).1
  have hw2 : w ∈ v2.toFinset := (Finset.mem_inter.1 hw).2
  have h1 : (0 : ℝ) < (sommeCarres v1 : ℝ) := by
    exact_mod_cast Nat.lt_of_lt_of_le Nat.zero_lt_one (one_le_sommeCarres hw1)
  have h2 : (0 : ℝ) < (sommeCarres v2 : ℝ) := by
    exact_mod_cast Nat.lt_of_lt_of_le Nat.zero_lt_one (one_le_sommeCarres hw2)
  exact mul_pos (Real.sqrt_pos.2 h1) (Real.sqrt_pos.2 h2)

theorem cosine_of_nonempty (v1 v2 : Multiset (List Char))
    (h : v1.toFinset ∩ v2.toFinset ≠ ∅) :
    cosine_similarity v1 v2
      = (numCommun v1 v2 : ℝ) / (Real.sqrt (sommeCarres v1) * Real.sqrt (sommeCarres v2)) := by
  unfold cosine_similarity
  rw [if_neg h]
  show (if (Real.sqrt (sommeCarres v1) * Real.sqrt (sommeCarres v2) : ℝ) ≠ 0 then
      ((numCommun v1 v2 : ℕ) : ℝ) / (Real.sqrt (sommeCarres v1) * Real.sqrt (sommeCarres v2))
    else 0) = _
  rw [if_pos (ne_of_gt (den_pos v1 v2 h))]

/-- Casting bridge: the numerator summed over the union support. -/
theorem numCommun_cast (v1 v2 : Multiset (List Char)) :
    (numCommun v1 v2 : ℝ)
      = ∑ w in v1.toFinset ∪ v2.toFinset, (v1.count w : ℝ) * (v2.count w : ℝ) := by
  unfold numCommun
  push_cast
  apply Finset.sum_subset (Finset.inter_subset_union)
  intro w _ hw
  rcases not_and_or.1 (fun hc => hw (Finset.mem_inter.2 hc)) with h | h
  · have : v1.count w = 0 := Multiset.count_eq_zero_of_not_mem (fun hm => h (Multiset.mem_toFinset.2 hm))
    simp [this]
  · have : v2.count w = 0 := Multiset.count_eq_zero_of_not_mem (fun hm => h (Multiset.mem_toFinset.2 hm))
    simp [this]

/-- Casting bridge: a squared norm summed over the union support. -/
theorem sommeCarres_cast_left (v1 v2 : Multiset (List Char)) :
    (sommeCarres v1 : ℝ) = ∑ w in v1.toFinset ∪ v2.toFinset, (v1.count w : ℝ) ^ 2 := by
  unfold sommeCarres
  push_cast
  simp only [pow_two]
  apply Finset.sum_subset (Finset.subset_union_left)
  intro w _ hw
  have h0 : v1.count w = 0 :=
    Multiset.count_eq_zero_of_not_mem (fun hm => hw (Multiset.mem_toFinset.2 hm))
  simp [h0]

theorem sommeCarres_cast_right (v1 v2 : Multiset (List Char)) :
    (sommeCarres v2 : ℝ) = ∑ w in v1.toFinset ∪ v2.toFinset, (v2.count w : ℝ) ^ 2 := by
  unfold sommeCarres
  push_cast
  simp only [pow_two]
  apply Finset.sum_subset (Finset.subset_union_right)
  intro w _ hw
  have h0 : v2.count w = 0 :=
    Multiset.count_eq_zero_of_not_mem (fun hm => hw (Multiset.mem_toFinset.2 hm))
  simp [h0]

/-- Cauchy-Schwarz for the engine's sums: the numerator is at most the
denominator. -/
theorem numCommun_le_den (v1 v2 : Multiset (List Char)) :
    (numCommun v1 v2 : ℝ) ≤ Real.sqrt (sommeCarres v1) * Real.sqrt (sommeCarres v2) := by
  rw [← Real.sqrt_mul (by positivity) ((sommeCarres v2 : ℝ))]
  rw [Real.le_sqrt (by positivity) (by positivity)]
  rw [numCommun_cast v1 v2, sommeCarres_cast_left v1 v2, sommeCarres_cast_right v1 v2]
  exact Finset.sum_mul_sq_le_sq_mul_sq _ _ _

theorem cosine_nonneg (v1 v2 : Multiset (List Char)) : 0 ≤ cosine_similarity v1 v2 := by
  by_cases h : v1.toFinset ∩ v2.toFinset = ∅
  · rw [cosine_of_disjoint v1 v2 h]
  · rw [cosine_of_nonempty v1 v2 h]
    exact div_nonneg (by positivity) (le_of_lt (den_pos v1 v2 h))

theorem cosine_le_one (v1 v2 : Multiset (List Char)) : cosine_similarity v1 v2 ≤ 1 := by
  by_cases h : v1.toFinset ∩ v2.toFinset = ∅
  · rw [cosine_of_disjoint v1 v2 h]; norm_num
  · rw [cosine_of_nonempty v1 v2 h]
    rw [div_le_one (den_pos v1 v2 h)]
    exact numCommun_le_den v1 v2

/-- Concrete evaluation of `cosine_similarity` when both squared norms are
perfect squares. -/
theorem cosine_eval_sq (v1 v2 : Multiset (List Char)) (n a b : ℕ)
    (hne : ¬(v1.toFinset ∩ v2.toFinset = ∅))
    (h1 : numCommun v1 v2 = n) (h2 : sommeCarres v1 = a * a) (h3 : sommeCarres v2 = b * b)
    (ha : 0 < a) (hb : 0 < b) :
    cosine_similarity v1 v2 = (n : ℝ) / ((a : ℝ) * (b : ℝ)) := by
  rw [cosine_of_nonempty v1 v2 hne, h1, h2, h3]
  have hsa : Real.sqrt (((a * a : ℕ) : ℝ)) = (a : ℝ) := by
    push_cast
    exact Real.sqrt_mul_self (by positivity)
  have hsb : Real.sqrt (((b * b : ℕ) : ℝ)) = (b : ℝ) := by
    push_cast
    exact Real.sqrt_mul_self (by positivity)
  rw [hsa, hsb]

/-! ### Tokenizer structure -/

theorem findallAux_eq (s : List Char) : ∀ cur : List Char,
    findallAux cur s = if cur.isEmpty then motsSpan s
      else (cur.reverse ++ s.takeWhile isWordChar) :: motsSpan (s.dropWhile isWordChar) := by
  induction s with
  | nil =>
    intro cur
    by_cases h : cur.isEmpty <;> simp [findallAux, motsSpan, h]
  | cons c cs ih =>
    intro cur
    by_cases hw : isWordChar c
    · have hne : (c :: cur).isEmpty = false := rfl
      simp only [findallAux, hw, if_pos, ih (c :: cur), hne, Bool.false_eq_true, ite_false,
        List.reverse_cons]
      by_cases hcur : cur.isEmpty
      · have : cur = [] := by
          cases cur with
          | nil => rfl
          | cons x xs => simp [List.isEmpty] at hcur
        subst this
        simp [motsSpan, hw, List.takeWhile_cons, List.dropWhile_cons]
      · simp [hcur, List.takeWhile_cons, List.dropWhile_cons, hw]
    · have hspan : motsSpan (c :: cs) = motsSpan cs := by
        conv_lhs => rw [motsSpan]
        simp [hw]
      have hstep : findallAux cur (c :: cs)
          = if cur.isEmpty then findallAux [] cs else cur.reverse :: findallAux [] cs := by
        simp [findallAux, hw]
      rw [hstep, ih []]
      by_cases hcur : cur.isEmpty
      · simp [hcur, hspan]
      · have htake : (c :: cs).takeWhile isWordChar = [] := by
          simp [List.takeWhile_cons, hw]
        have hdrop : (c :: cs).dropWhile isWordChar = c :: cs := by
          simp [List.dropWhile_cons, hw]
        simp [hcur, htake, hdrop, hspan]

/-- The two descriptions of `re.findall(r'\w+', ...)` agree. -/
theorem findall_w_eq (s : List Char) : findall_w s = motsSpan s := by
  unfold findall_w
  rw [findallAux_eq s []]
  rfl

theorem mem_rev_app {α : Type} {c x : α} {xs : List α} (hc : c ∈ xs.reverse ++ [x]) :
    c ∈ x :: xs := by
  rcases List.mem_append.1 hc with h | h
  · exact List.mem_cons_of_mem _ (List.mem_reverse.1 h)
  · simp only [List.mem_singleton] at h
    subst h
    exact List.mem_cons_self _ _

theorem findallAux_sound (s : List Char) : ∀ cur, (∀ c ∈ cur, isWordChar c = true) →
    ∀ m ∈ findallAux cur s, m ≠ [] ∧ ∀ c ∈ m, isWordChar c = true := by
  induction s with
  | nil =>
    intro cur hcur m hm
    cases cur with
    | nil => simp [findallAux] at hm
    | cons x xs =>
      simp [findallAux] at hm
      subst hm
      refine ⟨by simp, ?_⟩
      intro c hc
      exact hcur c (mem_rev_app hc)
  | cons c₀ cs ih =>
    intro cur hcur m hm
    by_cases hw : isWordChar c₀
    · have hcur' : ∀ c ∈ c₀ :: cur, isWordChar c = true := by
        intro c hc
        rcases List.mem_cons.1 hc with rfl | hc
        · exact hw
        · exact hcur c hc
      exact ih (c₀ :: cur) hcur' m (by simpa [findallAux, hw] using hm)
    · by_cases hcur0 : cur.isEmpty
      · exact ih [] (by simp) m (by simpa [findallAux, hw, hcur0] using hm)
      · have hm' : m = cur.reverse ∨ m ∈ findallAux [] cs := by
          simpa [findallAux, hw, hcur0] using hm
        rcases hm' with rfl | hm'
        · constructor
          · intro habs
            rw [List.reverse_eq_nil_iff] at habs
            subst habs
            simp at hcur0
          · intro c hc
            exact hcur c (List.mem_reverse.1 hc)
        · exact ih [] (by simp) m hm'

theorem findallAux_chars (s : List Char) : ∀ cur m, m ∈ findallAux cur s →
    ∀ c ∈ m, c ∈ cur ∨ c ∈ s := by
  induction s with
  | nil =>
    intro cur m hm c hc
    cases cur with
    | nil => simp [findallAux] at hm
    | cons x xs =>
      simp [findallAux] at hm
      subst hm
      exact Or.inl (mem_rev_app hc)
  | cons c₀ cs ih =>
    intro cur m hm c hc
    by_cases hw : isWordChar c₀
    · rcases ih (c₀ :: cur) m (by simpa [findallAux, hw] using hm) c hc with h | h
      · rcases List.mem_cons.1 h with rfl | h
        · exact Or.inr (by simp)
        · exact Or.inl h
      · exact Or.inr (by simp [h])
    · by_cases hcur0 : cur.isEmpty
      · rcases ih [] m (by simpa [findallAux, hw, hcur0] using hm) c hc with h | h
        · simp at h
        · exact Or.inr (by simp [h])
      · have hm' : m = cur.reverse ∨ m ∈ findallAux [] cs := by
          simpa [findallAux, hw, hcur0] using hm
        rcases hm' with rfl | hm'
        · exact Or.inl (List.mem_reverse.1 hc)
        · rcases ih [] m hm' c hc with h | h
          · simp at h
          · exact Or.inr (by simp [h])

/-! ### Keywords occur inside tokens -/

theorem takeWhile_append_all {p : Char → Bool} (l₁ l₂ : List Char)
    (h : ∀ c ∈ l₁, p c = true) :
    (l₁ ++ l₂).takeWhile p = l₁ ++ l₂.takeWhile p := by
  induction l₁ with
  | nil => simp
  | cons x xs ih =>
    have hx : p x = true := h x (by simp)
    simp only [List.cons_append, List.takeWhile_cons, hx, ite_true]
    rw [ih (fun c hc => h c (by simp [hc]))]

theorem motsSpan_members (cs : List Char) (m : List Char) (hm : m ∈ motsSpan cs) :
    (cs.takeWhile isWordChar ≠ [] ∧ m = cs.takeWhile isWordChar) ∨
      m ∈ motsSpan (cs.dropWhile isWordChar) := by
  cases cs with
  | nil => simp [motsSpan] at hm
  | cons x xs =>
    by_cases hw : isWordChar x
    · have hms : motsSpan (x :: xs)
          = (x :: xs.takeWhile isWordChar) :: motsSpan (xs.dropWhile isWordChar) := by
        conv_lhs => rw [motsSpan]
        simp [hw]
      rw [hms] at hm
      rcases List.mem_cons.1 hm with rfl | hm
      · exact Or.inl ⟨by simp [List.takeWhile_cons, hw], by simp [List.takeWhile_cons, hw]⟩
      · have : (x :: xs).dropWhile isWordChar = xs.dropWhile isWordChar := by
          simp [List.dropWhile_cons, hw]
        rw [this]
        exact Or.inr hm
    · have hms : motsSpan (x :: xs) = motsSpan xs := by
        conv_lhs => rw [motsSpan]
        simp [hw]
      rw [hms] at hm
      have : (x :: xs).dropWhile isWordChar = x :: xs := by
        simp [List.dropWhile_cons, hw]
      rw [this, hms]
      exact Or.inr hm

theorem motsSpan_cons_embed (c : Char) (cs : List Char) (m : List Char)
    (hm : m ∈ motsSpan cs) :
    ∃ m' ∈ motsSpan (c :: cs), ∃ u v, m' = u ++ m ++ v := by
  by_cases hw : isWordChar c
  · have hms : motsSpan (c :: cs)
        = (c :: cs.takeWhile isWordChar) :: motsSpan (cs.dropWhile isWordChar) := by
      conv_lhs => rw [motsSpan]
      simp [hw]
    rcases motsSpan_members cs m hm with ⟨ht, rfl⟩ | hd
    · exact ⟨c :: cs.takeWhile isWordChar, by rw [hms]; simp, [c], [], by simp⟩
    · exact ⟨m, by rw [hms]; simp [hd], [], [], by simp⟩
  · have hms : motsSpan (c :: cs) = motsSpan cs := by
      conv_lhs => rw [motsSpan]
      simp [hw]
    exact ⟨m, by rw [hms]; exact hm, [], [], by simp⟩

/-- Any occurrence of a nonempty all-word-character pattern in a string lies
inside one of its `\w+` tokens. -/
theorem occursIn_token (pat : List Char) (hne : pat ≠ [])
    (hword : ∀ c ∈ pat, isWordChar c = true) :
    ∀ s, occursIn pat s = true → ∃ m ∈ motsSpan s, ∃ u v, m = u ++ pat ++ v := by
  intro s
  induction s with
  | nil =>
    intro h
    cases pat with
    | nil => exact absurd rfl hne
    | cons p ps => simp [occursIn, matchesAt] at h
  | cons c cs ih =>
    intro h
    have hsplit : matchesAt pat (c :: cs) = true ∨ occursIn pat cs = true := by
      have hb : (matchesAt pat (c :: cs) || occursIn pat cs) = true := by
        simpa [occursIn] using h
      simpa using hb
    rcases hsplit with hm | ho
    · rcases (matchesAt_iff pat (c :: cs)).1 hm with ⟨w, hw⟩
      cases pat with
      | nil => exact absurd rfl hne
      | cons p ps =>
        injection hw with h1 h2
        subst h1
        have hcw : isWordChar c = true := hword c (by simp)
        have hps : ∀ x ∈ ps, isWordChar x = true := fun x hx => hword x (by simp [hx])
        have hms : motsSpan (c :: cs)
            = (c :: cs.takeWhile isWordChar) :: motsSpan (cs.dropWhile isWordChar) := by
          conv_lhs => rw [motsSpan]
          simp [hcw]
        refine ⟨c :: cs.takeWhile isWordChar, by rw [hms]; simp, [], w.takeWhile isWordChar, ?_⟩
        have htk : cs.takeWhile isWordChar = ps ++ w.takeWhile isWordChar := by
          rw [h2]
          exact takeWhile_append_all ps w hps
        rw [htk]
        simp
    · rcases ih ho with ⟨m, hmem, u, v, hm'⟩
      rcases motsSpan_cons_embed c cs m hmem with ⟨m', hmem', u', v', hm''⟩
      refine ⟨m', hmem', u' ++ u, v ++ v', ?_⟩
      rw [hm'', hm']
      simp [List.append_assoc]

/-- Decidable facts about the strong keywords: nonempty, longer than 2,
made of word characters only, and occurring in no stopword. -/
theorem mots_forts_facts :
    ∀ kw ∈ mots_forts, kw ≠ [] ∧ 2 < kw.length ∧ (∀ c ∈ kw, isWordChar c = true) ∧
      (∀ sw ∈ stopwords, occursIn kw sw = false) := by decide

/-- A question whose tokens are all stopwords or short receives no keyword
boost: every keyword occurrence would sit inside a token longer than 2 that
is not a stopword. -/
theorem matchCount_zero_of_filtered (question : List Char)
    (H : ∀ m ∈ findall_w (lowerStr question), m ∈ stopwords ∨ m.length ≤ 2) :
    matchCount question = 0 := by
  unfold matchCount
  rw [List.length_eq_zero, List.filter_eq_nil_iff]
  intro kw hkw hocc
  obtain ⟨hne, hlen, hword, hstop⟩ := mots_forts_facts kw hkw
  obtain ⟨m, hmem, u, v, hm⟩ :=
    occursIn_token kw hne hword (lowerStr question) (by simpa using hocc)
  have hmem' : m ∈ findall_w (lowerStr question) := by
    rw [findall_w_eq]
    exact hmem
  have hmlen : 2 < m.length := by
    rw [hm]
    simp only [List.length_append]
    omega
  rcases H m hmem' with hsw | hshort
  · have : occursIn kw m = true := (occursIn_iff kw m).2 ⟨u, v, hm⟩
    rw [hstop m hsw] at this
    cases this
  · omega

theorem nettoyer_zero_of_filtered (question : List Char)
    (H : ∀ m ∈ findall_w (lowerStr question), m ∈ stopwords ∨ m.length ≤ 2) :
    nettoyer_et_vectoriser question = 0 := by
  unfold nettoyer_et_vectoriser
  rw [Multiset.coe_eq_zero, List.filter_eq_nil_iff]
  intro m hm
  rcases H m hm with hsw | hshort
  · simp [hsw]
  · simp only [Bool.and_eq_true, decide_eq_true_eq]
    intro hc
    omega

theorem cosine_zero_left (v : Multiset (List Char)) : cosine_similarity 0 v = 0 := by
  apply cosine_of_disjoint
  simp

/-- When no score beats the accumulator the selection fold does nothing. -/
theorem selFold_id {α : Type} (f : α → ℝ) (l : List α) (acc : ℝ × Option α)
    (h : ∀ c ∈ l, f c ≤ acc.1) : l.foldl (selStep f) acc = acc := by
  induction l with
  | nil => rfl
  | cons c rest ih =>
    simp only [List.foldl_cons]
    have : selStep f acc c = acc := by
      unfold selStep
      rw [if_neg (not_lt.2 (h c (by simp)))]
    rw [this]
    exact ih (fun x hx => h x (by simp [hx]))

/-! ### Lowercasing -/

theorem lowerPairs_snd_no_fst :
    ∀ p ∈ lowerPairs, lowerPairs.find? (fun q => q.1 == p.2) = none := by decide

theorem toLowerChar_eq_of_none {c : Char}
    (h : lowerPairs.find? (fun p => p.1 == c) = none) : toLowerChar c = c := by
  unfold toLowerChar
  rw [h]
  rfl

theorem toLowerChar_eq_of_some {c : Char} {p : Char × Char}
    (h : lowerPairs.find? (fun q => q.1 == c) = some p) : toLowerChar c = p.2 := by
  unfold toLowerChar
  rw [h]
  rfl

theorem toLowerChar_idem (c : Char) : toLowerChar (toLowerChar c) = toLowerChar c := by
  cases hf : lowerPairs.find? (fun p => p.1 == c) with
  | none => rw [toLowerChar_eq_of_none hf, toLowerChar_eq_of_none hf]
  | some p =>
    rw [toLowerChar_eq_of_some hf]
    exact toLowerChar_eq_of_none (lowerPairs_snd_no_fst p (List.mem_of_find?_eq_some hf))

/-! ### Invariants of the produced term vectors -/

theorem nettoyer_term_props (texte : List Char) (m : List Char)
    (hm : m ∈ nettoyer_et_vectoriser texte) :
    1 ≤ (nettoyer_et_vectoriser texte).count m ∧ m ≠ [] ∧
      (∀ c ∈ m, isWordChar c = true) ∧ (∀ c ∈ m, toLowerChar c = c) ∧
      2 < m.length ∧ m ∉ stopwords := by
  refine ⟨Multiset.one_le_count_iff_mem.2 hm, ?_⟩
  have hm' : m ∈ (findall_w (lowerStr texte)).filter
      (fun m => decide (m ∉ stopwords) && decide (2 < m.length)) := by
    simpa [nettoyer_et_vectoriser, Multiset.mem_coe] using hm
  have hmem := (List.mem_filter.1 hm').1
  have hpred := (List.mem_filter.1 hm').2
  simp only [Bool.and_eq_true, decide_eq_true_eq] at hpred
  obtain ⟨hnstop, hlen⟩ := hpred
  obtain ⟨hne, hword⟩ := findallAux_sound (lowerStr texte) [] (by simp) m hmem
  refine ⟨hne, hword, ?_, hlen, hnstop⟩
  intro c hc
  rcases findallAux_chars (lowerStr texte) [] m hmem c hc with hcur | hs
  · simp at hcur
  · obtain ⟨c₀, _, rfl⟩ := List.mem_map.1 hs
    exact toLowerChar_idem c₀

/-! ### Truncation -/

theorem dropWhile_head_not {p : Char → Bool} (l : List Char) :
    l.dropWhile p = [] ∨ ∃ x xs, l.dropWhile p = x :: xs ∧ p x = false := by
  induction l with
  | nil => exact Or.inl rfl
  | cons c cs ih =>
    by_cases h : p c = true
    · simpa [List.dropWhile_cons, h] using ih
    · exact Or.inr ⟨c, cs, by simp [List.dropWhile_cons, h], by simpa using h⟩

theorem beforeLastSpace_spec (l : List Char) (h : ' ' ∈ l) :
    ∃ pre post, l = pre ++ ' ' :: post ∧ (' ' ∉ post) ∧ beforeLastSpace l = pre := by
  have hcontains : l.contains ' ' = true := by simpa using h
  rcases dropWhile_head_not (p := fun c => !(c == ' ')) l.reverse with hnil | ⟨x, xs, hx, hpx⟩
  · exfalso
    have hmem : ' ' ∈ l.reverse := List.mem_reverse.2 h
    have hsplit : l.reverse = l.reverse.takeWhile (fun c => !(c == ' ')) := by
      conv_lhs => rw [← List.takeWhile_append_dropWhile (p := fun c => !(c == ' '))
        (l := l.reverse)]
      rw [hnil, List.append_nil]
    rw [hsplit] at hmem
    have := List.mem_takeWhile_imp hmem
    simp at this
  · have hx' : x = ' ' := by simpa using hpx
    subst hx'
    set a := l.reverse.takeWhile (fun c => !(c == ' ')) with ha
    refine ⟨xs.reverse, a.reverse, ?_, ?_, ?_⟩
    · have hsplit : l.reverse = a ++ ' ' :: xs := by
        conv_lhs => rw [← List.takeWhile_append_dropWhile (p := fun c => !(c == ' '))
          (l := l.reverse)]
        rw [hx]
      have : l = (a ++ ' ' :: xs).reverse := by
        rw [← hsplit, List.reverse_reverse]
      rw [this]
      simp
    · intro hmem
      have hma : ' ' ∈ a := List.mem_reverse.1 hmem
      have := List.mem_takeWhile_imp hma
      simp at this
    · unfold beforeLastSpace
      rw [if_pos hcontains, hx]
      simp

theorem shapeContexte_short (t : List Char) (h : (pyStrip t).length ≤ 600) :
    shapeContexte t = pyStrip t := by
  unfold shapeContexte
  rw [if_neg (not_lt.2 h)]

theorem shapeContexte_long_nospace (t : List Char) (h : 600 < (pyStrip t).length)
    (hns : ' ' ∉ (pyStrip t).take 600) :
    shapeContexte t = (pyStrip t).take 600 ++ ('.' :: '.' :: '.' :: []) := by
  unfold shapeContexte
  rw [if_pos h]
  congr 1
  unfold beforeLastSpace
  rw [if_neg]
  intro hcon
  exact hns (by simpa using hcon)

theorem shapeContexte_long_space (t : List Char) (h : 600 < (pyStrip t).length)
    (hsp : ' ' ∈ (pyStrip t).take 600) :
    ∃ pre post, (pyStrip t).take 600 = pre ++ ' ' :: post ∧ (' ' ∉ post) ∧
      shapeContexte t = pre ++ ('.' :: '.' :: '.' :: []) := by
  obtain ⟨pre, post, hdec, hpost, hbl⟩ := beforeLastSpace_spec _ hsp
  refine ⟨pre, post, hdec, hpost, ?_⟩
  unfold shapeContexte
  rw [if_pos h, hbl]

/-! ### Rounding -/

theorem round3_nonneg {x : ℝ} (hx : 0 ≤ x) : 0 ≤ round3 x := by
  unfold round3
  apply div_nonneg _ (by norm_num)
  have h0 : (0 : ℤ) ≤ round (1000 * x) := by
    rw [round_eq]
    exact Int.floor_nonneg.2 (by linarith)
  exact_mod_cast h0

/-! ### Unfolding and evaluation helpers -/

theorem chercher_eq (chunks : List ChunkT) (question : List Char) :
    chercher_dans_nird chunks question
      = if (0.12 : ℝ) < (meilleur chunks question).1 then
          (match (meilleur chunks question).2 with
           | none => none
           | some ch => some (matchReponse question ch (meilleur chunks question).1))
        else some (fallbackReponse question) := rfl

theorem meilleur_fst_nonneg (chunks : List ChunkT) (question : List Char) :
    0 ≤ (meilleur chunks question).1 := by
  rw [meilleur_eq]
  exact (selFold_le_fst (scoreOf question) chunks (0, none)).1

theorem meilleur_single (ch : ChunkT) (q : List Char) (h : 0 < scoreOf q ch) :
    meilleur [ch] q = (scoreOf q ch, some ch) := by
  rw [meilleur_eq]
  show selStep (scoreOf q) (0, none) ch = _
  unfold selStep
  rw [if_pos h]

theorem meilleur_pair (ch ch' : ChunkT) (q : List Char) (h : 0 < scoreOf q ch)
    (hle : scoreOf q ch' ≤ scoreOf q ch) :
    meilleur [ch, ch'] q = (scoreOf q ch, some ch) := by
  rw [meilleur_eq]
  show List.foldl (selStep (scoreOf q)) (selStep (scoreOf q) (0, none) ch) [ch'] = _
  have h1 : selStep (scoreOf q) (0, none) ch = (scoreOf q ch, some ch) := by
    unfold selStep
    rw [if_pos h]
  rw [h1]
  show selStep (scoreOf q) (scoreOf q ch, some ch) ch' = _
  unfold selStep
  rw [if_neg (not_lt.2 hle)]

theorem score_linux_eval :
    scoreOf "linux".data ⟨1, "linux".data, "u".data, "t".data⟩ = 59 / 50 := by
  have hsc : scoreOf "linux".data ⟨1, "linux".data, "u".data, "t".data⟩
      = cosine_similarity (nettoyer_et_vectoriser "linux".data)
          (nettoyer_et_vectoriser "linux".data)
        + 0.18 * (matchCount "linux".data : ℝ) := scoreChunk_eq _ _ _
  have hcos : cosine_similarity (nettoyer_et_vectoriser "linux".data)
      (nettoyer_et_vectoriser "linux".data) = 1 := by
    rw [cosine_eval_sq _ _ 1 1 1 (by decide) (by decide) (by decide) (by decide)
      (by decide) (by decide)]
    norm_num
  have hmc : matchCount "linux".data = 1 := by decide
  rw [hsc, hcos, hmc]
  norm_num

theorem score_boundary_eval :
    scoreOf "xxx xxx xxx yyy yyy yyy yyy".data
        ⟨2, "xxx aaa aaa bbb bbb ccc ccc ccc ccc".data, "u".data, "t".data⟩ = 3 / 25 := by
  have hsc : scoreOf "xxx xxx xxx yyy yyy yyy yyy".data
        ⟨2, "xxx aaa aaa bbb bbb ccc ccc ccc ccc".data, "u".data, "t".data⟩
      = cosine_similarity (nettoyer_et_vectoriser "xxx xxx xxx yyy yyy yyy yyy".data)
          (nettoyer_et_vectoriser "xxx aaa aaa bbb bbb ccc ccc ccc ccc".data)
        + 0.18 * (matchCount "xxx xxx xxx yyy yyy yyy yyy".data : ℝ) := scoreChunk_eq _ _ _
  have hcos : cosine_similarity
      (nettoyer_et_vectoriser "xxx xxx xxx yyy yyy yyy yyy".data)
      (nettoyer_et_vectoriser "xxx aaa aaa bbb bbb ccc ccc ccc ccc".data) = 3 / 25 := by
    rw [cosine_eval_sq _ _ 3 5 5 (by decide) (by decide) (by decide) (by decide)
      (by decide) (by decide)]
    norm_num
  have hmc : matchCount "xxx xxx xxx yyy yyy yyy yyy".data = 0 := by decide
  rw [hsc, hcos, hmc]
  norm_num

/-! ### Claims -/

/-- C1: for every corpus and question, the query returns a Match carrying the
winning chunk and the maximum score exactly when the maximum score over all
index entries strictly exceeds 0.12, and returns the fallback response
otherwise (in particular a best score of exactly 0.12 falls back). -/
theorem claim_C1_threshold (chunks : List ChunkT) (question : List Char) :
    ((∀ c ∈ chunks, scoreOf question c ≤ 0.12) →
      chercher_dans_nird chunks question = some (fallbackReponse question)) ∧
    ((∃ c ∈ chunks, 0.12 < scoreOf question c) →
      ∃ ch ∈ chunks, scoreOf question ch = (meilleur chunks question).1 ∧
        (∀ c ∈ chunks, scoreOf question c ≤ scoreOf question ch) ∧
        chercher_dans_nird chunks question
          = some (matchReponse question ch (scoreOf question ch))) := by
  constructor
  · intro hall
    have hle : (meilleur chunks question).1 ≤ 0.12 := by
      rw [meilleur_eq]
      exact selFold_fst_le_of _ _ _ _ (by norm_num) hall
    rw [chercher_eq, if_neg (not_lt.2 hle)]
  · rintro ⟨c0, hc0, hgt⟩
    have hge : 0.12 < (meilleur chunks question).1 := by
      rw [meilleur_eq]
      exact lt_of_lt_of_le hgt ((selFold_le_fst (scoreOf question) chunks (0, none)).2 c0 hc0)
    have hcases := selFold_cases (scoreOf question) chunks (0, none)
    rw [← meilleur_eq] at hcases
    rcases hcases with heq | ⟨l₁, ch, l₂, hdec, h2, h1, hlt, hall⟩
    · rw [heq] at hge
      norm_num at hge
    · refine ⟨ch, by simp [hdec], h1.symm, ?_, ?_⟩
      · intro c hc
        have hle := (selFold_le_fst (scoreOf question) chunks (0, none)).2 c hc
        rw [← meilleur_eq, h1] at hle
        exact hle
      · rw [chercher_eq, if_pos hge, h2, h1]
  
/-- Witness for C1: a corpus whose single chunk scores exactly 0.12 against
the question (raw cosine 3/25, no keyword boost) yields the fallback, and a
corpus whose single chunk scores 1.18 > 0.12 yields the Match. -/
theorem claim_C1_threshold_witness :
    chercher_dans_nird [⟨2, "xxx aaa aaa bbb bbb ccc ccc ccc ccc".data, "u".data, "t".data⟩]
        "xxx xxx xxx yyy yyy yyy yyy".data
      = some (fallbackReponse "xxx xxx xxx yyy yyy yyy yyy".data) ∧
    chercher_dans_nird [⟨1, "linux".data, "u".data, "t".data⟩] "linux".data
      = some (matchReponse "linux".data ⟨1, "linux".data, "u".data, "t".data⟩
          (scoreOf "linux".data ⟨1, "linux".data, "u".data, "t".data⟩)) := by
  constructor
  · apply (claim_C1_threshold _ _).1
    intro c hc
    have hc' : c = ⟨2, "xxx aaa aaa bbb bbb ccc ccc ccc ccc".data, "u".data, "t".data⟩ := by
      simpa using hc
    rw [hc', score_boundary_eval]
    norm_num
  · obtain ⟨ch, hch, _, _, hres⟩ := (claim_C1_threshold
        [(⟨1, "linux".data, "u".data, "t".data⟩ : ChunkT)] "linux".data).2
      ⟨⟨1, "linux".data, "u".data, "t".data⟩, by simp,
        by rw [score_linux_eval]; norm_num⟩
    have hc : ch = ⟨1, "linux".data, "u".data, "t".data⟩ := by simpa using hch
    rw [hc] at hres
    exact hres

/-- C6: the loop tracks the best entry with a strict comparison in corpus
order, so whenever a Match is returned the winning chunk is the first one
attaining the maximum score: everything before it scores strictly less,
everything after it scores no more. -/
theorem claim_C6_tiebreak (chunks : List ChunkT) (question : List Char)
    (h : 0.12 < (meilleur chunks question).1) :
    ∃ l₁ ch l₂, chunks = l₁ ++ ch :: l₂ ∧
      scoreOf question ch = (meilleur chunks question).1 ∧
      (∀ x ∈ l₁, scoreOf question x < scoreOf question ch) ∧
      (∀ x ∈ l₂, scoreOf question x ≤ scoreOf question ch) ∧
      chercher_dans_nird chunks question
        = some (matchReponse question ch (scoreOf question ch)) := by
  have hcases := selFold_cases (scoreOf question) chunks (0, none)
  rw [← meilleur_eq] at hcases
  rcases hcases with heq | ⟨l₁, ch, l₂, hdec, h2, h1, hlt, hall⟩
  · rw [heq] at h
    norm_num at h
  · refine ⟨l₁, ch, l₂, hdec, h1.symm, hall, ?_, ?_⟩
    · intro x hx
      have hle := (selFold_le_fst (scoreOf question) chunks (0, none)).2 x
        (by rw [hdec]; simp [hx])
      rw [← meilleur_eq, h1] at hle
      exact hle
    · rw [chercher_eq, if_pos h, h2, h1]

/-- Witness for C6: two chunks with identical text (hence identical term
vectors and scores); the query returns the first. -/
theorem claim_C6_tiebreak_witness :
    scoreOf "linux".data ⟨2, "linux".data, "u2".data, "t2".data⟩
      = scoreOf "linux".data ⟨1, "linux".data, "u".data, "t".data⟩ ∧
    chercher_dans_nird
        [⟨1, "linux".data, "u".data, "t".data⟩, ⟨2, "linux".data, "u2".data, "t2".data⟩]
        "linux".data
      = some (matchReponse "linux".data ⟨1, "linux".data, "u".data, "t".data⟩
          (scoreOf "linux".data ⟨1, "linux".data, "u".data, "t".data⟩)) := by
  have hs2 : scoreOf "linux".data ⟨2, "linux".data, "u2".data, "t2".data⟩
      = scoreOf "linux".data ⟨1, "linux".data, "u".data, "t".data⟩ := rfl
  have hm : meilleur
      [(⟨1, "linux".data, "u".data, "t".data⟩ : ChunkT),
       ⟨2, "linux".data, "u2".data, "t2".data⟩] "linux".data
      = (scoreOf "linux".data ⟨1, "linux".data, "u".data, "t".data⟩,
         some ⟨1, "linux".data, "u".data, "t".data⟩) := by
    apply meilleur_pair
    · rw [score_linux_eval]; norm_num
    · rw [hs2]
  refine ⟨hs2, ?_⟩
  obtain ⟨l₁, ch, l₂, hdec, hsc, hlt, hle, hres⟩ :=
    claim_C6_tiebreak
      [(⟨1, "linux".data, "u".data, "t".data⟩ : ChunkT),
       ⟨2, "linux".data, "u2".data, "t2".data⟩] "linux".data
      (by rw [hm, score_linux_eval]; norm_num)
  rcases l₁ with _ | ⟨x, l₁'⟩
  · have hch : ch = ⟨1, "linux".data, "u".data, "t".data⟩ := by
      have := hdec
      simp only [List.nil_append, List.cons.injEq] at this
      exact this.1.symm
    rw [hch] at hres
    exact hres
  · rcases l₁' with _ | ⟨y, l₁''⟩
    · exfalso
      simp only [List.cons_append, List.nil_append, List.cons.injEq] at hdec
      obtain ⟨hx, hch, -⟩ := hdec
      have hlt1 := hlt x (by simp)
      rw [← hx, ← hch] at hlt1
      rw [hs2] at hlt1
      exact lt_irrefl _ hlt1
    · exfalso
      have hlen := congrArg List.length hdec
      simp at hlen

/-- C10: the Match branch is safe: whenever the tracked best score exceeds
0.12 the tracked best chunk is a chunk of the corpus (never the initial
`None`), and the handler never reaches the crashing branch on any input. -/
theorem claim_C10_safety (chunks : List ChunkT) (question : List Char) :
    (0.12 < (meilleur chunks question).1 →
      ∃ ch ∈ chunks, (meilleur chunks question).2 = some ch) ∧
    (chercher_dans_nird chunks question).isSome = true := by
  have hcases := selFold_cases (scoreOf question) chunks (0, none)
  rw [← meilleur_eq] at hcases
  constructor
  · intro h
    rcases hcases with heq | ⟨l₁, ch, l₂, hdec, h2, h1, hlt, hall⟩
    · rw [heq] at h
      norm_num at h
    · exact ⟨ch, by simp [hdec], h2⟩
  · rw [chercher_eq]
    by_cases h : (0.12 : ℝ) < (meilleur chunks question).1
    · rw [if_pos h]
      rcases hcases with heq | ⟨l₁, ch, l₂, hdec, h2, h1, hlt, hall⟩
      · rw [heq] at h
        norm_num at h
      · rw [h2]
        rfl
    · rw [if_neg h]
      rfl

/-- Witness for C10: a corpus and question whose best score 1.18 exceeds the
threshold; the best chunk is a corpus chunk and the handler returns a
response. -/
theorem claim_C10_safety_witness :
    (0.12 : ℝ) < (meilleur [⟨1, "linux".data, "u".data, "t".data⟩] "linux".data).1 ∧
    (meilleur [⟨1, "linux".data, "u".data, "t".data⟩] "linux".data).2
      = some ⟨1, "linux".data, "u".data, "t".data⟩ ∧
    (chercher_dans_nird [⟨1, "linux".data, "u".data, "t".data⟩] "linux".data).isSome
      = true := by
  have h : (0.12 : ℝ) < (meilleur [⟨1, "linux".data, "u".data, "t".data⟩] "linux".data).1 := by
    rw [meilleur_single _ _ (by rw [score_linux_eval]; norm_num), score_linux_eval]
    norm_num
  obtain ⟨ch, hmem, heq⟩ := (claim_C10_safety _ _).1 h
  have hch : ch = ⟨1, "linux".data, "u".data, "t".data⟩ := by simpa using hmem
  rw [hch] at heq
  exact ⟨h, heq, (claim_C10_safety _ _).2⟩

/-- C7: a question all of whose tokens are stopwords or of length at most 2
(the empty question included) vectorises to the empty term vector, gives
every chunk similarity 0.0 and score 0.0, and the query returns the fallback
response, whatever the corpus. -/
theorem claim_C7_stopword_fallback (question : List Char) (chunks : List ChunkT)
    (H : ∀ m ∈ findall_w (lowerStr question), m ∈ stopwords ∨ m.length ≤ 2) :
    nettoyer_et_vectoriser question = 0 ∧
    (∀ c ∈ chunks, cosine_similarity (nettoyer_et_vectoriser question)
        (nettoyer_et_vectoriser c.text) = 0) ∧
    (∀ c ∈ chunks, scoreOf question c = 0) ∧
    chercher_dans_nird chunks question = some (fallbackReponse question) := by
  have hz : nettoyer_et_vectoriser question = 0 := nettoyer_zero_of_filtered question H
  have hcos : ∀ c : ChunkT, cosine_similarity (nettoyer_et_vectoriser question)
      (nettoyer_et_vectoriser c.text) = 0 := by
    intro c
    rw [hz]
    exact cosine_zero_left _
  have hscore : ∀ c : ChunkT, scoreOf question c = 0 := by
    intro c
    have hsc : scoreOf question c
        = cosine_similarity (nettoyer_et_vectoriser question)
            (nettoyer_et_vectoriser c.text) + 0.18 * (matchCount question : ℝ) :=
      scoreChunk_eq _ _ _
    rw [hsc, hcos c, matchCount_zero_of_filtered question H]
    norm_num
  have hm : meilleur chunks question = (0, none) := by
    rw [meilleur_eq]
    exact selFold_id _ _ _ (fun c _ => le_of_eq (hscore c))
  refine ⟨hz, fun c _ => hcos c, fun c _ => hscore c, ?_⟩
  rw [chercher_eq, hm]
  norm_num

/-- Witness for C7: a question made only of stopwords, against a nonempty
corpus. -/
theorem claim_C7_stopword_fallback_witness :
    nettoyer_et_vectoriser "Le la EST comment où très du".data = 0 ∧
    chercher_dans_nird [⟨1, "linux".data, "u".data, "t".data⟩]
        "Le la EST comment où très du".data
      = some (fallbackReponse "Le la EST comment où très du".data) := by
  obtain ⟨h1, _, _, h4⟩ :=
    claim_C7_stopword_fallback "Le la EST comment où très du".data
      [⟨1, "linux".data, "u".data, "t".data⟩] (by decide)
  exact ⟨h1, h4⟩

/-- C2 counterexample: adding the keyword changes the question's term vector,
so the score difference is not 0.18 per keyword.  Question "aaa aaa aaa"
scores 1 against chunk "aaa" (cosine 1, no keyword); appending "linux linux
linux linux" matches exactly one more keyword but scores 3/5 + 0.18 ≠ 1 +
0.18. -/
theorem claim_C2_counterexample :
    matchCount "aaa aaa aaa linux linux linux linux".data
      = matchCount "aaa aaa aaa".data + 1 ∧
    scoreOf "aaa aaa aaa linux linux linux linux".data ⟨1, "aaa".data, "u".data, "t".data⟩
      ≠ scoreOf "aaa aaa aaa".data ⟨1, "aaa".data, "u".data, "t".data⟩ + 0.18 := by
  constructor
  · decide
  · have h1 : scoreOf "aaa aaa aaa linux linux linux linux".data
        ⟨1, "aaa".data, "u".data, "t".data⟩
        = cosine_similarity
            (nettoyer_et_vectoriser "aaa aaa aaa linux linux linux linux".data)
            (nettoyer_et_vectoriser "aaa".data)
          + 0.18 * (matchCount "aaa aaa aaa linux linux linux linux".data : ℝ) :=
      scoreChunk_eq _ _ _
    have h2 : scoreOf "aaa aaa aaa".data ⟨1, "aaa".data, "u".data, "t".data⟩
        = cosine_similarity (nettoyer_et_vectoriser "aaa aaa aaa".data)
            (nettoyer_et_vectoriser "aaa".data)
          + 0.18 * (matchCount "aaa aaa aaa".data : ℝ) := scoreChunk_eq _ _ _
    have hc1 : cosine_similarity
        (nettoyer_et_vectoriser "aaa aaa aaa linux linux linux linux".data)
        (nettoyer_et_vectoriser "aaa".data) = 3 / 5 := by
      rw [cosine_eval_sq _ _ 3 5 1 (by decide) (by decide) (by decide) (by decide)
        (by decide) (by decide)]
      norm_num
    have hc2 : cosine_similarity (nettoyer_et_vectoriser "aaa aaa aaa".data)
        (nettoyer_et_vectoriser "aaa".data) = 1 := by
      rw [cosine_eval_sq _ _ 3 3 1 (by decide) (by decide) (by decide) (by decide)
        (by decide) (by decide)]
      norm_num
    have hm1 : matchCount "aaa aaa aaa linux linux linux linux".data = 1 := by decide
    have hm2 : matchCount "aaa aaa aaa".data = 0 := by decide
    rw [h1, h2, hc1, hc2, hm1, hm2]
    norm_num

/-- C2 (amended): within one query each matching keyword adds exactly 0.18 to
every chunk's score, uniformly, so relative order of chunks follows raw
cosine similarity; across two questions the score difference decomposes as
the raw-cosine difference plus 0.18 per extra matching keyword (it is exactly
0.18 per keyword only when the raw similarities agree). -/
theorem claim_C2_boost_uniformity :
    (∀ (question : List Char) (vq v : Multiset (List Char)),
      scoreChunk question vq v
        = cosine_similarity vq v + 0.18 * (matchCount question : ℝ)) ∧
    (∀ (question : List Char) (c₁ c₂ : ChunkT),
      (scoreOf question c₂ < scoreOf question c₁ ↔
        cosine_similarity (nettoyer_et_vectoriser question) (nettoyer_et_vectoriser c₂.text)
          < cosine_similarity (nettoyer_et_vectoriser question)
              (nettoyer_et_vectoriser c₁.text))) ∧
    (∀ (q₁ q₂ : List Char) (c : ChunkT),
      scoreOf q₂ c - scoreOf q₁ c
        = (cosine_similarity (nettoyer_et_vectoriser q₂) (nettoyer_et_vectoriser c.text)
            - cosine_similarity (nettoyer_et_vectoriser q₁) (nettoyer_et_vectoriser c.text))
          + 0.18 * ((matchCount q₂ : ℝ) - (matchCount q₁ : ℝ))) := by
  refine ⟨fun q vq v => scoreChunk_eq q vq v, ?_, ?_⟩
  · intro question c₁ c₂
    have h1 : scoreOf question c₁
        = cosine_similarity (nettoyer_et_vectoriser question)
            (nettoyer_et_vectoriser c₁.text) + 0.18 * (matchCount question : ℝ) :=
      scoreChunk_eq _ _ _
    have h2 : scoreOf question c₂
        = cosine_similarity (nettoyer_et_vectoriser question)
            (nettoyer_et_vectoriser c₂.text) + 0.18 * (matchCount question : ℝ) :=
      scoreChunk_eq _ _ _
    rw [h1, h2]
    exact add_lt_add_iff_right _
  · intro q₁ q₂ c
    have h1 : scoreOf q₁ c
        = cosine_similarity (nettoyer_et_vectoriser q₁) (nettoyer_et_vectoriser c.text)
          + 0.18 * (matchCount q₁ : ℝ) := scoreChunk_eq _ _ _
    have h2 : scoreOf q₂ c
        = cosine_similarity (nettoyer_et_vectoriser q₂) (nettoyer_et_vectoriser c.text)
          + 0.18 * (matchCount q₂ : ℝ) := scoreChunk_eq _ _ _
    rw [h1, h2]
    ring

/-- Witness for C2 at concrete inputs: the boost decomposition evaluated on
the "linux" question and chunk. -/
theorem claim_C2_boost_uniformity_witness :
    scoreChunk "linux".data (nettoyer_et_vectoriser "linux".data)
        (nettoyer_et_vectoriser "linux".data)
      = cosine_similarity (nettoyer_et_vectoriser "linux".data)
          (nettoyer_et_vectoriser "linux".data)
        + 0.18 * (matchCount "linux".data : ℝ) ∧
    scoreOf "aaa".data ⟨1, "linux".data, "u".data, "t".data⟩
        - scoreOf "bbb".data ⟨1, "linux".data, "u".data, "t".data⟩
      = (cosine_similarity (nettoyer_et_vectoriser "aaa".data)
            (nettoyer_et_vectoriser "linux".data)
          - cosine_similarity (nettoyer_et_vectoriser "bbb".data)
              (nettoyer_et_vectoriser "linux".data))
        + 0.18 * ((matchCount "aaa".data : ℝ) - (matchCount "bbb".data : ℝ)) :=
  ⟨claim_C2_boost_uniformity.1 "linux".data _ _,
   claim_C2_boost_uniformity.2.2 "bbb".data "aaa".data _⟩

/-- C3 counterexample: a record with a missing `text` key makes the startup
vectorisation raise `KeyError` (modelled `none`) instead of treating the text
as empty, and a record with a missing `source_url` key makes response
building raise instead of substituting an empty string. -/
theorem claim_C3_counterexample :
    vecteurs_chunks_raw [⟨some 1, none, some "u".data, some "t".data⟩] = none ∧
    vecteurs_chunks_raw [⟨some 1, none, some "u".data, some "t".data⟩]
      ≠ some [nettoyer_et_vectoriser []] ∧
    buildMatchRaw "q".data ⟨some 1, some "abc".data, none, some "t".data⟩ 1 = none := by
  have h1 : vecteurs_chunks_raw [⟨some 1, none, some "u".data, some "t".data⟩] = none := rfl
  refine ⟨h1, ?_, rfl⟩
  rw [h1]
  simp

/-- C3 (amended): the core fails on malformed records: any chunk with a
missing `text` aborts index construction with a `KeyError`, and any missing
field aborts Match-response building; no empty-string substitution occurs. -/
theorem claim_C3_missing_fields :
    (∀ (chunks : List RawChunk) (c : RawChunk), c ∈ chunks → c.text = none →
      vecteurs_chunks_raw chunks = none) ∧
    (∀ (question : List Char) (score : ℝ) (ch : RawChunk),
      (ch.text = none ∨ ch.chunk_id = none ∨ ch.source_url = none ∨
        ch.source_title = none) →
      buildMatchRaw question ch score = none) := by
  constructor
  · intro chunks c hc htext
    induction chunks with
    | nil => simp at hc
    | cons c₀ rest ih =>
      rcases List.mem_cons.1 hc with rfl | hc'
      · unfold vecteurs_chunks_raw
        rw [htext]
      · unfold vecteurs_chunks_raw
        cases h0 : c₀.text with
        | none => rfl
        | some t =>
          rw [ih hc']
          rfl
  · intro question score ch h
    obtain ⟨i, t, u, st⟩ := ch
    rcases t with _ | t <;> rcases i with _ | i <;> rcases u with _ | u <;>
      rcases st with _ | st <;> simp_all [buildMatchRaw]

/-- Witness for C3: a two-record corpus whose second record lacks `text`
fails at startup; a record lacking `chunk_id` fails at response building. -/
theorem claim_C3_missing_fields_witness :
    vecteurs_chunks_raw
        [⟨some 5, some "ok".data, some "u".data, some "t".data⟩,
         ⟨some 6, none, some "u".data, some "t".data⟩] = none ∧
    buildMatchRaw "q".data ⟨none, some "abc".data, some "u".data, some "t".data⟩ 0
      = none := by
  constructor
  · exact claim_C3_missing_fields.1 _ ⟨some 6, none, some "u".data, some "t".data⟩
      (by simp) rfl
  · exact claim_C3_missing_fields.2 _ _ _ (by simp)

/-- Concrete handler evaluation: the one-chunk "linux" corpus matches with
score 1.18 = 59/50. -/
theorem chercher_linux_eval :
    chercher_dans_nird [⟨1, "linux".data, "u".data, "t".data⟩] "linux".data
      = some (matchReponse "linux".data ⟨1, "linux".data, "u".data, "t".data⟩ (59 / 50)) := by
  rw [chercher_eq, meilleur_single _ _ (by rw [score_linux_eval]; norm_num),
    score_linux_eval]
  norm_num

/-- C4 counterexample: the keyword boost pushes the winning score to 1.18, so
the reported confidence is 1.18 > 1.0, outside the claimed 0.0-1.0 range. -/
theorem claim_C4_counterexample :
    chercher_dans_nird [⟨1, "linux".data, "u".data, "t".data⟩] "linux".data
      = some (matchReponse "linux".data ⟨1, "linux".data, "u".data, "t".data⟩ (59 / 50)) ∧
    (matchReponse "linux".data ⟨1, "linux".data, "u".data, "t".data⟩ (59 / 50)).confiance
      = 59 / 50 ∧
    (1 : ℝ) < 59 / 50 := by
  refine ⟨chercher_linux_eval, ?_, by norm_num⟩
  show round3 (59 / 50) = 59 / 50
  unfold round3
  have h : (1000 : ℝ) * (59 / 50) = ((1180 : ℤ) : ℝ) := by norm_num
  rw [h, round_intCast]
  norm_num

/-- C4 (amended): the reported confidence is the winning score rounded to 3
decimals in the Match branch and 0.0 in the fallback branch; it is always
nonnegative, but it can exceed 1.0 when keyword boosts apply. -/
theorem claim_C4_confidence (chunks : List ChunkT) (question : List Char) (r : ReponseNIRD)
    (h : chercher_dans_nird chunks question = some r) :
    0 ≤ r.confiance ∧
      (r.confiance = round3 ((meilleur chunks question).1) ∨ r.confiance = 0) := by
  rw [chercher_eq] at h
  by_cases hlt : (0.12 : ℝ) < (meilleur chunks question).1
  · rw [if_pos hlt] at h
    cases h2 : (meilleur chunks question).2 with
    | none =>
      rw [h2] at h
      cases h
    | some ch =>
      rw [h2] at h
      have hr : matchReponse question ch (meilleur chunks question).1 = r := by
        have := h
        injection this
      rw [← hr]
      constructor
      · exact round3_nonneg (meilleur_fst_nonneg chunks question)
      · exact Or.inl rfl
  · rw [if_neg hlt] at h
    have hr : fallbackReponse question = r := by
      injection h
    rw [← hr]
    constructor
    · norm_num [fallbackReponse]
    · right
      norm_num [fallbackReponse]

/-- Witness for C4: the confidence of the concrete "linux" Match is
nonnegative and equals the rounded winning score. -/
theorem claim_C4_confidence_witness :
    0 ≤ (matchReponse "linux".data ⟨1, "linux".data, "u".data, "t".data⟩
        (59 / 50)).confiance ∧
      ((matchReponse "linux".data ⟨1, "linux".data, "u".data, "t".data⟩
          (59 / 50)).confiance
        = round3 ((meilleur [⟨1, "linux".data, "u".data, "t".data⟩] "linux".data).1) ∨
       (matchReponse "linux".data ⟨1, "linux".data, "u".data, "t".data⟩
          (59 / 50)).confiance = 0) :=
  claim_C4_confidence [⟨1, "linux".data, "u".data, "t".data⟩] "linux".data _
    chercher_linux_eval

/-- C5 counterexample: a 650-character single word is cut mid-word at exactly
600 characters (there is no whitespace to back up to), and a 2-character text
is not returned unchanged because the handler strips it first. -/
theorem claim_C5_counterexample :
    shapeContexte (List.replicate 650 'a')
      = List.replicate 600 'a' ++ ('.' :: '.' :: '.' :: []) ∧
    ' ' ∉ List.replicate 650 'a' ∧
    shapeContexte (' ' :: 'a' :: []) ≠ ' ' :: 'a' :: [] := by
  refine ⟨by decide, by decide, by decide⟩

/-- C5 (amended): the context is the chunk text stripped of surrounding
whitespace; stripped texts of at most 600 characters are returned as
stripped; longer texts are truncated to 600 characters, backed up to just
before the last space character of that prefix when one exists (never
splitting at other whitespace), and "..." is appended; when the prefix has no
space the full 600-character prefix is kept, cutting mid-word. -/
theorem claim_C5_truncation (t : List Char) :
    ((pyStrip t).length ≤ 600 → shapeContexte t = pyStrip t) ∧
    (600 < (pyStrip t).length → ' ' ∉ (pyStrip t).take 600 →
      shapeContexte t = (pyStrip t).take 600 ++ ('.' :: '.' :: '.' :: [])) ∧
    (600 < (pyStrip t).length → ' ' ∈ (pyStrip t).take 600 →
      ∃ pre post, (pyStrip t).take 600 = pre ++ ' ' :: post ∧ (' ' ∉ post) ∧
        shapeContexte t = pre ++ ('.' :: '.' :: '.' :: [])) :=
  ⟨shapeContexte_short t, shapeContexte_long_nospace t, shapeContexte_long_space t⟩

/-- Witness for C5: the spec's own example, a 650-character text whose last
space before position 600 is at position 590; the result is the
590-character prefix followed by "...". -/
theorem claim_C5_truncation_witness :
    600 < (pyStrip (List.replicate 590 'a' ++ ' ' :: List.replicate 59 'b')).length ∧
    ' ' ∈ (pyStrip (List.replicate 590 'a' ++ ' ' :: List.replicate 59 'b')).take 600 ∧
    shapeContexte (List.replicate 590 'a' ++ ' ' :: List.replicate 59 'b')
      = List.replicate 590 'a' ++ ('.' :: '.' :: '.' :: []) ∧
    shapeContexte "abc".data = pyStrip "abc".data := by
  refine ⟨by decide, by decide, by decide, ?_⟩
  exact (claim_C5_truncation "abc".data).1 (by decide)

/-- C8: cosine similarity is 0.0 on disjoint term sets; otherwise the
denominator is provably nonzero and the value is the common-term dot product
over the product of Euclidean norms; the result always lies in [0, 1]. -/
theorem claim_C8_cosine (v1 v2 : Multiset (List Char)) :
    (v1.toFinset ∩ v2.toFinset = ∅ → cosine_similarity v1 v2 = 0) ∧
    (v1.toFinset ∩ v2.toFinset ≠ ∅ →
      Real.sqrt (sommeCarres v1) * Real.sqrt (sommeCarres v2) ≠ 0 ∧
      cosine_similarity v1 v2
        = (numCommun v1 v2 : ℝ)
            / (Real.sqrt (sommeCarres v1) * Real.sqrt (sommeCarres v2))) ∧
    0 ≤ cosine_similarity v1 v2 ∧ cosine_similarity v1 v2 ≤ 1 :=
  ⟨cosine_of_disjoint v1 v2,
   fun h => ⟨ne_of_gt (den_pos v1 v2 h), cosine_of_nonempty v1 v2 h⟩,
   cosine_nonneg v1 v2, cosine_le_one v1 v2⟩

/-- Witness for C8: disjoint singleton vectors give 0.0; identical singleton
vectors give the quotient form with nonzero denominator. -/
theorem claim_C8_cosine_witness :
    cosine_similarity ({"aaa".data} : Multiset (List Char))
        ({"bbb".data} : Multiset (List Char)) = 0 ∧
    (Real.sqrt (sommeCarres ({"aaa".data} : Multiset (List Char)))
        * Real.sqrt (sommeCarres ({"aaa".data} : Multiset (List Char))) ≠ 0 ∧
      cosine_similarity ({"aaa".data} : Multiset (List Char))
          ({"aaa".data} : Multiset (List Char))
        = (numCommun ({"aaa".data} : Multiset (List Char))
              ({"aaa".data} : Multiset (List Char)) : ℝ)
            / (Real.sqrt (sommeCarres ({"aaa".data} : Multiset (List Char)))
                * Real.sqrt (sommeCarres ({"aaa".data} : Multiset (List Char))))) :=
  ⟨(claim_C8_cosine _ _).1 (by decide), (claim_C8_cosine _ _).2.1 (by decide)⟩

/-- C9 counterexample: `\w+` tokens may contain underscores, so a stored term
need not be alphanumeric: vectorising "a_b" stores the term "a_b". -/
theorem claim_C9_counterexample :
    "a_b".data ∈ nettoyer_et_vectoriser "a_b".data ∧
    '_' ∈ "a_b".data ∧ Char.isAlphanum '_' = false := by
  refine ⟨by decide, by decide, by decide⟩

/-- C9 (amended): every term stored by vectorisation has count at least 1, is
nonempty, consists of word characters (letters, digits or underscore), is
lowercase, has length strictly greater than 2, and is not a stopword. -/
theorem claim_C9_term_invariants (texte m : List Char)
    (hm : m ∈ nettoyer_et_vectoriser texte) :
    1 ≤ (nettoyer_et_vectoriser texte).count m ∧ m ≠ [] ∧
      (∀ c ∈ m, isWordChar c = true) ∧ (∀ c ∈ m, toLowerChar c = c) ∧
      2 < m.length ∧ m ∉ stopwords :=
  nettoyer_term_props texte m hm

/-- Witness for C9: the invariants instantiated on the term "xyz". -/
theorem claim_C9_term_invariants_witness :
    "xyz".data ∈ nettoyer_et_vectoriser "xyz".data ∧
    1 ≤ (nettoyer_et_vectoriser "xyz".data).count "xyz".data ∧
    2 < "xyz".data.length ∧ "xyz".data ∉ stopwords := by
  have h := claim_C9_term_invariants "xyz".data "xyz".data (by decide)
  exact ⟨by decide, h.1, h.2.2.2.2.1, h.2.2.2.2.2⟩
